/-
Verification of the tty-copy core (src/tty-copy.c) against its
natural-language specification.

The C program is shallowly embedded: bytes are `Nat` (values < 256 where it
matters), byte strings are `List Nat`, the stdio stream used by `fpeek` is a
pushback-buffer/remaining-data pair, and the transfer loop of `main` is a
fuel-indexed recursion emitting an explicit trace of framing events.  Machine
integers never overflow in the modelled code paths (all sizes are far below
2^64), so plain `Nat`/`Int` arithmetic is used.
-/
import Mathlib

set_option maxRecDepth 10000

/-- ASCII byte list of a Lean string literal (used to transcribe the C string
literals of tty-copy.c). -/
def bytes (s : String) : List Nat := s.toList.map Char.toNat

/-- The three operations of tty-copy (`opts.op` in the C source:
OP_TEST, OP_CLEAR, OP_WRITE). -/
inductive Op where
  | test
  | clear
  | write
deriving DecidableEq

/-- The option struct of tty-copy.c (`opts`), minus the tty path, which is
only used to open the destination stream. -/
structure Opts where
  op : Op
  is_screen : Bool
  is_tmux : Bool
  primary : Bool
  trim_newline : Bool

/-- ERR_GENERAL from tty-copy.c. -/
def err_general : Nat := 1

/-- ERR_IO from tty-copy.c (value 11). -/
def err_io : Nat := 11

/-- OSC_SAFE_LIMIT from tty-copy.c. -/
def osc_safe_limit : Nat := 74994

/-- The base64 alphabet `b64_table` of tty-copy.c, as ASCII codes. -/
def b64_table : List Nat :=
  (bytes "ABCDEFGHIJKLMNOPQRSTUVWXYZabcdefghijklmnopqrstuvwxyz0123456789+/")

/-- Table lookup `b64_table[i]`. -/
def b64 (i : Nat) : Nat := b64_table.getD i 0

/-- Index of a byte in the base64 alphabet (used only by the reference
decoder; the length of the table is returned for non-alphabet bytes). -/
def b64_val (c : Nat) : Nat := b64_table.indexOf c

/-- Size function `base64_encoded_size` from tty-copy.c: `(size + 2) / 3 * 4 + 1`. -/
def base64_encoded_size (size : Nat) : Nat := (size + 2) / 3 * 4 + 1

/-- Encoder `base64_encode` from tty-copy.c: the sequence of bytes stored in `dst`
before the terminating null.  The while loop consumes 3-byte groups; the
trailing `if` handles a remainder of 1 or 2 bytes with `'='` (61) padding.
Shifts and masks on bytes < 256 are rendered as division/modulo. -/
def base64_encode : List Nat → List Nat
  | a :: b :: c :: rest =>
      b64 (a / 4) ::
      b64 ((a % 4) * 16 + b / 16) ::
      b64 ((b % 16) * 4 + c / 64) ::
      b64 (c % 64) ::
      base64_encode rest
  | [a, b] =>
      [b64 (a / 4), b64 ((a % 4) * 16 + b / 16), b64 ((b % 16) * 4), 61]
  | [a] =>
      [b64 (a / 4), b64 ((a % 4) * 16), 61, 61]
  | [] => []

/-- The full contents `base64_encode` stores into `dst`: the encoded bytes
followed by the terminating null (`*pos = '\0'`), which is not counted in the
returned length `pos - dst`. -/
def base64_write (s : List Nat) : List Nat := base64_encode s ++ [0]

/-- Reference RFC 4648 base64 decoder (not part of tty-copy.c; it is the
`decode` the specification's round-trip property quantifies over).  Processes
quadruples, honouring `'='` (61) padding in the last quadruple. -/
def base64_decode : List Nat → List Nat
  | c1 :: c2 :: c3 :: c4 :: rest =>
      if c3 = 61 then
        [b64_val c1 * 4 + b64_val c2 / 16]
      else if c4 = 61 then
        [b64_val c1 * 4 + b64_val c2 / 16,
         (b64_val c2 % 16) * 16 + b64_val c3 / 4]
      else
        (b64_val c1 * 4 + b64_val c2 / 16) ::
        ((b64_val c2 % 16) * 16 + b64_val c3 / 4) ::
        ((b64_val c3 % 4) * 64 + b64_val c4) ::
        base64_decode rest
  | _ => []

/-! ## Sequence builder (main, lines 282-287) -/

/-- Header `seq_start` of main: `sprintf(seq_start, "%s\033]52;%c;", opts.is_tmux ?
"\033Ptmux;\033" : "", opts.primary ? 'p' : 'c')`. -/
def seq_start (o : Opts) : List Nat :=
  (if o.is_tmux then bytes "\x1bPtmux;\x1b" else []) ++
  bytes "\x1b]52;" ++
  [if o.primary then 112 else 99] ++
  bytes ";"

/-- Footer `seq_end` of main: `opts.is_tmux ? "\a\033\\" : "\a"`. -/
def seq_end (o : Opts) : List Nat :=
  if o.is_tmux then bytes "\x07\x1b\\" else bytes "\x07"

/-! ## fpeek (lines 232-237) over a stdio-stream model -/

/-- Model of a readable `FILE *` stream: the one-byte `ungetc` pushback
buffer and the remaining underlying data. -/
structure CStream where
  pushback : Option Nat
  data : List Nat
deriving DecidableEq

/-- Observable remaining contents of the stream: the pushed-back byte, if
any, followed by the underlying data. -/
def CStream.toList (s : CStream) : List Nat := s.pushback.toList ++ s.data

/-- Model of `fgetc`: returns the next byte (pushback first) as a non-negative `Int`,
or `-1` (EOF) when the stream is exhausted. -/
def fgetc : CStream → Int × CStream
  | ⟨some c, d⟩ => ((c : Int), ⟨none, d⟩)
  | ⟨none, b :: d⟩ => ((b : Int), ⟨none, d⟩)
  | ⟨none, []⟩ => (-1, ⟨none, []⟩)

/-- Model of `ungetc(ch, stream)`: pushing back `EOF` fails and leaves the stream
unchanged; otherwise `(unsigned char)ch` becomes the next byte read. -/
def ungetc (ch : Int) (s : CStream) : CStream :=
  if ch = -1 then s else { s with pushback := some (ch.toNat % 256) }

/-- Function `fpeek` from tty-copy.c: `fgetc` then `ungetc` of the obtained value. -/
def fpeek (s : CStream) : Int × CStream :=
  let r := fgetc s
  (r.1, ungetc r.1 r.2)

/-! ## Cursor-position probe helpers (get_cursor_column, lines 242-260) -/

/-- Byte predicate for C `isspace` in the C locale (what `%d` skips). -/
def isSpaceByte (b : Nat) : Bool :=
  b = 32 ∨ b = 9 ∨ b = 10 ∨ b = 11 ∨ b = 12 ∨ b = 13

/-- ASCII decimal digit predicate. -/
def isDigitByte (b : Nat) : Bool := 48 ≤ b ∧ b ≤ 57

/-- Numeric value of a list of ASCII digit bytes (most significant first). -/
def digitsVal (ds : List Nat) : Nat :=
  ds.foldl (fun acc d => acc * 10 + (d - 48)) 0

/-- The read loop of `get_cursor_column`: bytes are fetched until the
previously stored byte was `'R'` (82) or 15 bytes (`sizeof(buf) - 1`) are
stored; a failing `fgetc` (modelled as stream exhaustion) yields `none`,
mirroring the early `return -1`.  The returned list is the stored prefix of
`buf`. -/
def readLoop (avail : List Nat) (i ch : Nat) : Option (List Nat) :=
  if ch = 82 ∨ 15 ≤ i then some []
  else
    match avail with
    | [] => none
    | b :: rest => (readLoop rest (i + 1) b).map fun t => b :: t

/-- Two's-complement reduction of an integer into C `int` (32 bits): the
value is taken mod 2^32 into the interval [-2^31, 2^31).  This is what
storing a `%d` conversion result into an `int` does on the ABIs tty-copy
targets (glibc/musl): the accumulated `long` value of the digit run — never
clamped here, since at most 15 digits fit the reply buffer — is truncated
to the low 32 bits. -/
def toInt32 (v : Int) : Int :=
  let m := v % 4294967296
  if m < 2147483648 then m else m - 4294967296

/-- One `%d` conversion of `sscanf`: skip C whitespace, consume an optional
sign, then a non-empty run of digits; returns the value as stored through
the 32-bit `int` destination (two's-complement truncation, e.g. the digit
run 4294967295 stores -1) and the remaining bytes, or `none` on matching
failure. -/
def scanInt (s0 : List Nat) : Option (Int × List Nat) :=
  let s := s0.dropWhile isSpaceByte
  let sign : Int := if s.head? = some 45 then -1 else 1
  let s1 := if s.head? = some 45 ∨ s.head? = some 43 then s.tail else s
  let ds := s1.takeWhile isDigitByte
  if ds = [] then none
  else some (toInt32 (sign * (digitsVal ds : Int)), s1.drop ds.length)

/-- Model of `sscanf(buf, "\033[%d;%dR", &row, &col)` restricted to what the caller
checks: the result is `some col` exactly when the return value is 2, i.e.
when the literal prefix `ESC [` matches and both `%d` conversions succeed
with a literal `;` between them.  (The trailing `R` of the format cannot
influence a return value of 2, so it is not consulted.) -/
def scanReply (s : List Nat) : Option Int :=
  match s with
  | 27 :: 91 :: rest =>
      match scanInt rest with
      | none => none
      | some (_, rest2) =>
          match rest2 with
          | 59 :: rest3 =>
              match scanInt rest3 with
              | none => none
              | some (col, _) => some col
          | _ => none
  | _ => none

/-- Function `get_cursor_column`: `queryOk` models the checked `fputs("\033[6n", tty)`
write of the request; `avail` is the byte sequence the terminal makes
readable in reply.  The stored bytes form a C string (reading stops at the
first null, the rest of `buf` being zero-initialised) handed to `sscanf`. -/
def get_cursor_column (queryOk : Bool) (avail : List Nat) : Int :=
  if queryOk = false then -1
  else
    match readLoop avail 0 0 with
    | none => -1
    | some buf =>
        match scanReply (buf.takeWhile fun b => b ≠ 0) with
        | none => -1
        | some col => col

/-- The evaluation in main (lines 314-317): `rc = ERR_GENERAL` exactly when
`col < 0 || col2 < 0 || col != col2`, else `EXIT_SUCCESS`. -/
def test_eval (col col2 : Int) : Nat :=
  if col < 0 ∨ col2 < 0 ∨ col ≠ col2 then err_general else 0

/-! ## Literal-argument concatenation (main, lines 327-347) -/

/-- The argument-concatenation loop of main.  `buf` is the accumulated
contents of the `char buf[OSC_SAFE_LIMIT]` array; each step first performs
the overflow check `buf_len + arg_len + 2 > sizeof(buf)` (yielding the
`goto done` error path, modelled as `none`), then appends a separating
space when `buf` is non-empty, then the argument. -/
def argsJoin (buf : List Nat) : List (List Nat) → Option (List Nat)
  | [] => some buf
  | a :: rest =>
      if buf.length + a.length + 2 > osc_safe_limit then none
      else argsJoin ((if buf.length > 0 then buf ++ [32] else buf) ++ a) rest

/-- The joined contents the loop builds when no check fires (same
accumulation without the overflow check). -/
def codeJoin (args : List (List Nat)) : List Nat :=
  args.foldl (fun buf a => (if buf.length > 0 then buf ++ [32] else buf) ++ a) []

/-! ## Transfer engine (main, lines 349-393) -/

/-- Framing events written to the destination during a transfer, in order.
`payload c` records the raw (pre-encoding) chunk whose base64 encoding is
written by the checked `fwrite`. -/
inductive Ev where
  | escP
  | header
  | payload (chunk : List Nat)
  | escE
  | footer
deriving DecidableEq

/-- The bytes each event puts on the wire. -/
def evBytes (o : Opts) : Ev → List Nat
  | Ev.escP => bytes "\x1bP"
  | Ev.header => seq_start o
  | Ev.payload c => base64_encode c
  | Ev.escE => bytes "\x1b\\"
  | Ev.footer => seq_end o

/-- Chunk capacity `sizeof(read_buf)`: `(opts.is_screen ? 254 : 2048) * 3`. -/
def cap (o : Opts) : Nat := (if o.is_screen then 254 else 2048) * 3

/-- One `fread` followed by the trim-newline adjustment: the chunk is the
next `cap o` bytes (fewer at end of input); if trimming is enabled, the
stream is exhausted (`fpeek(input) == EOF`), and the chunk ends in `'\n'`
(10), the newline is dropped (`--read_len`). -/
def effChunk (o : Opts) (inp : List Nat) : List Nat :=
  let chunk := inp.take (cap o)
  if o.trim_newline = true ∧ inp.drop (cap o) = [] ∧ chunk.getLast? = some 10
  then chunk.dropLast else chunk

/-- The read/encode/write loop of main (lines 356-382) as a trace of events
plus the `rc` it leaves.  `wOk k` tells whether the checked `fwrite` of the
`k`-th emitted frame succeeds; on failure the loop breaks with `rc =
ERR_IO`.  `wh` is the `write_header` flag.  The `fuel` argument only drives
the recursion; `transfer` below supplies `inp.length`, which is an upper
bound on the number of iterations since every iteration consumes at least
one input byte. -/
def transferGo (o : Opts) (wOk : Nat → Bool) :
    Nat → Nat → Bool → List Nat → List Ev × Nat
  | _, _, _, [] => ([], 0)
  | 0, _, _, _ :: _ => ([], 0)
  | fuel + 1, k, wh, b :: bs =>
      let chunk := effChunk o (b :: bs)
      if chunk = [] then ([], 0)
      else
        let pre := (if o.is_screen then [Ev.escP] else []) ++
                   (if wh then [Ev.header] else [])
        if wOk k then
          let r := transferGo o wOk fuel (k + 1) false ((b :: bs).drop (cap o))
          (pre ++ Ev.payload chunk ::
             ((if o.is_screen then [Ev.escE] else []) ++ r.1), r.2)
        else
          (pre ++ [Ev.payload chunk], err_io)

/-- The whole transfer (loop, unconditional footer write, `ferror(input)`
check): `readErr` models `ferror(input)` being set after the loop, which
overwrites `rc` with `ERR_IO`. -/
def transfer (o : Opts) (wOk : Nat → Bool) (readErr : Bool) (inp : List Nat) :
    List Ev × Nat :=
  let r := transferGo o wOk inp.length 0 true inp
  (r.1 ++ [Ev.footer], if readErr then err_io else r.2)

/-- Payload-event discriminator. -/
def isPayload : Ev → Bool
  | Ev.payload _ => true
  | _ => false

/-- Checks that an event trace is a sequence of Screen device-control
blocks: each block opens with `ESC P`, carries one frame (with the OSC
header inside the first block), and closes with `ESC \`. -/
def wrapOk : List Ev → Bool
  | [] => true
  | Ev.escP :: Ev.header :: Ev.payload _ :: Ev.escE :: rest => wrapOk rest
  | Ev.escP :: Ev.payload _ :: Ev.escE :: rest => wrapOk rest
  | _ => false

/-! ## Whole-run model of main (lines 279-407) -/

/-- Externally visible actions of a run of main on the destination terminal:
the `tcgetattr` snapshot, the `term_change_local_modes` raw-mode switch, byte
writes, and the `tcsetattr` restoration at `done:`. -/
inductive Act where
  | modeSave
  | modeRaw
  | modeRestore
  | write (bs : List Nat)
deriving DecidableEq

/-- Write-action discriminator. -/
def isWrite : Act → Bool
  | Act.write _ => true
  | _ => false

/-- Environment of one run: whether `fopen` succeeds, whether the
destination is a tty (`isatty`), whether `ferror(tty)` is set at the end,
the transfer-loop oracles, the stdin contents, the trailing command-line
arguments, and the probe's two query outcomes. -/
structure World where
  openOk : Bool
  isTty : Bool
  ttyErr : Bool
  readErr : Bool
  writeOk : Nat → Bool
  stdinData : List Nat
  args : List (List Nat)
  q1 : Bool
  reply1 : List Nat
  q2 : Bool
  reply2 : List Nat

/-- The operation-specific part of main (the `if/else if/else` on `opts.op`,
lines 307-394): the actions it performs, the `rc` it leaves, and whether it
jumped to `done:` (skipping the `ferror(tty)` check). -/
def opBody (o : Opts) (w : World) : List Act × Nat × Bool :=
  match o.op with
  | Op.test =>
      let col := get_cursor_column w.q1 w.reply1
      let col2 := get_cursor_column w.q2 w.reply2
      let acts := [Act.write (bytes "\x1b7"), Act.write (bytes "\x1b[6n"),
                   Act.write (seq_start o ++ seq_end o),
                   Act.write (bytes "\x1b[6n")]
      if col < 0 ∨ col2 < 0 ∨ col ≠ col2 then
        (acts ++ [Act.write (bytes "\x1b8")], err_general, false)
      else (acts, 0, false)
  | Op.clear =>
      ([Act.write (seq_start o ++ [33] ++ seq_end o)], 0, false)
  | Op.write =>
      if w.args = [] then
        let r := transfer o w.writeOk w.readErr w.stdinData
        (r.1.map fun e => Act.write (evBytes o e), r.2, false)
      else
        match argsJoin [] w.args with
        | none => ([], err_general, true)
        | some buf =>
            let r := transfer o w.writeOk false buf
            (r.1.map fun e => Act.write (evBytes o e), r.2, false)

/-- A whole run of main after option parsing: a failing `fopen` exits with
`ERR_IO` before touching the terminal; otherwise the terminal mode is
saved and switched whenever the destination is a tty, the selected
operation runs, `ferror(tty)` is consulted unless the operation jumped to
`done:`, and the saved mode is restored at `done:` whenever the destination
is a tty. -/
def mainRun (o : Opts) (w : World) : List Act × Nat :=
  if w.openOk = false then ([], err_io)
  else
    let pre := if w.isTty then [Act.modeSave, Act.modeRaw] else []
    let r := opBody o w
    let rc := if r.2.2 = false ∧ w.ttyErr = true then err_io else r.2.1
    (pre ++ r.1 ++ (if w.isTty then [Act.modeRestore] else []), rc)

/-! ## Transfer-loop lemmas -/

/-- Unfolding of one iteration of the read/encode/write loop. -/
theorem transferGo_cons (o : Opts) (wOk : Nat → Bool) (fuel k : Nat) (wh : Bool)
    (b : Nat) (bs : List Nat) :
    transferGo o wOk (fuel + 1) k wh (b :: bs) =
      if effChunk o (b :: bs) = [] then ([], 0)
      else
        if wOk k then
          (((if o.is_screen then [Ev.escP] else []) ++
              (if wh then [Ev.header] else [])) ++
             Ev.payload (effChunk o (b :: bs)) ::
               ((if o.is_screen then [Ev.escE] else []) ++
                 (transferGo o wOk fuel (k + 1) false ((b :: bs).drop (cap o))).1),
           (transferGo o wOk fuel (k + 1) false ((b :: bs).drop (cap o))).2)
        else
          (((if o.is_screen then [Ev.escP] else []) ++
              (if wh then [Ev.header] else [])) ++
             [Ev.payload (effChunk o (b :: bs))], err_io) := rfl

theorem tg_footer_not_mem (o : Opts) (wOk : Nat → Bool) :
    ∀ fuel k wh inp, Ev.footer ∉ (transferGo o wOk fuel k wh inp).1 := by
  intro fuel
  induction fuel with
  | zero =>
      intro k wh inp
      cases inp <;> simp [transferGo]
  | succ n ih =>
      intro k wh inp
      cases inp with
      | nil => simp [transferGo]
      | cons b bs =>
          rw [transferGo_cons]
          split_ifs <;> simp_all [ih]

theorem tg_header_not_mem (o : Opts) (wOk : Nat → Bool) :
    ∀ fuel k inp, Ev.header ∉ (transferGo o wOk fuel k false inp).1 := by
  intro fuel
  induction fuel with
  | zero =>
      intro k inp
      cases inp <;> simp [transferGo]
  | succ n ih =>
      intro k inp
      cases inp with
      | nil => simp [transferGo]
      | cons b bs =>
          rw [transferGo_cons]
          split_ifs <;> simp_all [ih]

theorem tg_shape_true (o : Opts) (wOk : Nat → Bool) (fuel k : Nat)
    (inp : List Nat) :
    (transferGo o wOk fuel k true inp).1 = [] ∨
    ∃ c t, (transferGo o wOk fuel k true inp).1 =
        (if o.is_screen then [Ev.escP] else []) ++
          Ev.header :: Ev.payload c :: t ∧
      Ev.header ∉ t := by
  cases fuel with
  | zero => cases inp <;> simp [transferGo]
  | succ n =>
      cases inp with
      | nil => simp [transferGo]
      | cons b bs =>
          rw [transferGo_cons]
          by_cases h1 : effChunk o (b :: bs) = []
          · rw [if_pos h1]
            exact Or.inl rfl
          · rw [if_neg h1]
            by_cases h2 : wOk k = true
            · rw [if_pos h2]
              refine Or.inr ⟨effChunk o (b :: bs),
                (if o.is_screen then [Ev.escE] else []) ++
                  (transferGo o wOk n (k + 1) false ((b :: bs).drop (cap o))).1,
                ?_, ?_⟩
              · simp [List.append_assoc]
              · have hh := tg_header_not_mem o wOk n (k + 1)
                  ((b :: bs).drop (cap o))
                by_cases hs : o.is_screen = true <;> simp [hs, hh]
            · rw [if_neg h2]
              refine Or.inr ⟨effChunk o (b :: bs), [], ?_, by simp⟩
              simp [List.append_assoc]

theorem countP_pre_screen (o : Opts) :
    List.countP isPayload (if o.is_screen = true then [Ev.escP] else []) = 0 := by
  by_cases h : o.is_screen = true <;> simp [h, isPayload]

theorem countP_pre_wh (wh : Bool) :
    List.countP isPayload (if wh = true then [Ev.header] else []) = 0 := by
  cases wh <;> simp [isPayload]

theorem countP_post_screen (o : Opts) :
    List.countP isPayload (if o.is_screen = true then [Ev.escE] else []) = 0 := by
  by_cases h : o.is_screen = true <;> simp [h, isPayload]

theorem tg_countP_le (o : Opts) (wOk : Nat → Bool) :
    ∀ fuel k wh inp j, k ≤ j → wOk j = false →
      (transferGo o wOk fuel k wh inp).1.countP isPayload ≤ j - k + 1 := by
  intro fuel
  induction fuel with
  | zero =>
      intro k wh inp j _ _
      cases inp <;> simp [transferGo]
  | succ n ih =>
      intro k wh inp j hkj hj
      cases inp with
      | nil => simp [transferGo]
      | cons b bs =>
          rw [transferGo_cons]
          by_cases h1 : effChunk o (b :: bs) = []
          · rw [if_pos h1]
            simp
          · rw [if_neg h1]
            by_cases h2 : wOk k = true
            · rw [if_pos h2]
              have hne : k ≠ j := by
                intro e
                rw [e] at h2
                simp [h2] at hj
              have hrec := ih (k + 1) false ((b :: bs).drop (cap o)) j
                (by omega) hj
              simp only [List.countP_append, List.countP_cons,
                countP_pre_screen, countP_pre_wh, countP_post_screen,
                isPayload, if_true, cond_true]
              simp only [List.countP_append, countP_post_screen] at hrec ⊢
              omega
            · rw [if_neg h2]
              simp only [List.countP_append, List.countP_cons,
                countP_pre_screen, countP_pre_wh, List.countP_nil,
                isPayload, if_true, cond_true]
              omega

theorem tg_rc (o : Opts) (wOk : Nat → Bool) :
    ∀ fuel k wh inp, (transferGo o wOk fuel k wh inp).2 = 0 ∨
      (transferGo o wOk fuel k wh inp).2 = err_io := by
  intro fuel
  induction fuel with
  | zero =>
      intro k wh inp
      cases inp <;> simp [transferGo]
  | succ n ih =>
      intro k wh inp
      cases inp with
      | nil => simp [transferGo]
      | cons b bs =>
          rw [transferGo_cons]
          by_cases h1 : effChunk o (b :: bs) = []
          · rw [if_pos h1]
            exact Or.inl rfl
          · rw [if_neg h1]
            by_cases h2 : wOk k = true
            · rw [if_pos h2]
              exact ih (k + 1) false ((b :: bs).drop (cap o))
            · rw [if_neg h2]
              exact Or.inr rfl

theorem tg_fail_rc (o : Opts) (wOk : Nat → Bool) :
    ∀ fuel k wh inp j, k ≤ j → wOk j = false →
      j - k < (transferGo o wOk fuel k wh inp).1.countP isPayload →
      (transferGo o wOk fuel k wh inp).2 = err_io := by
  intro fuel
  induction fuel with
  | zero =>
      intro k wh inp j _ _ hlt
      cases inp <;> simp [transferGo] at hlt
  | succ n ih =>
      intro k wh inp j hkj hj hlt
      cases inp with
      | nil => simp [transferGo] at hlt
      | cons b bs =>
          rw [transferGo_cons] at hlt ⊢
          by_cases h1 : effChunk o (b :: bs) = []
          · rw [if_pos h1] at hlt
            simp at hlt
          · rw [if_neg h1] at hlt ⊢
            by_cases h2 : wOk k = true
            · rw [if_pos h2] at hlt ⊢
              have hne : k ≠ j := by
                intro e
                rw [e] at h2
                simp [h2] at hj
              refine ih (k + 1) false ((b :: bs).drop (cap o)) j (by omega) hj ?_
              simp [List.countP_append, List.countP_cons, countP_pre_screen,
                countP_pre_wh, countP_post_screen, isPayload] at hlt
              omega
            · rw [if_neg h2]

theorem effChunk_len (o : Opts) (inp : List Nat) :
    (effChunk o inp).length ≤ cap o := by
  have ht : (inp.take (cap o)).length ≤ cap o := by
    simp [List.length_take]
  have hd : (List.dropLast (inp.take (cap o))).length ≤
      (inp.take (cap o)).length := by
    simp [List.length_dropLast]
  simp only [effChunk]
  split_ifs with h
  · omega
  · exact ht

theorem payload_not_mem_pre (o : Opts) (wh : Bool) (c : List Nat) :
    Ev.payload c ∉ ((if o.is_screen then [Ev.escP] else []) ++
      (if wh then [Ev.header] else [])) := by
  by_cases h : o.is_screen = true <;> cases wh <;> simp [h]

theorem payload_not_mem_post (o : Opts) (c : List Nat) :
    Ev.payload c ∉ (if o.is_screen then [Ev.escE] else []) := by
  by_cases h : o.is_screen = true <;> simp [h]

/-- Projection of `transferGo_cons` to the event trace. -/
theorem transferGo_cons_fst (o : Opts) (wOk : Nat → Bool) (fuel k : Nat)
    (wh : Bool) (b : Nat) (bs : List Nat) :
    (transferGo o wOk (fuel + 1) k wh (b :: bs)).1 =
      if effChunk o (b :: bs) = [] then []
      else
        if wOk k then
          ((if o.is_screen then [Ev.escP] else []) ++
              (if wh then [Ev.header] else [])) ++
            Ev.payload (effChunk o (b :: bs)) ::
              ((if o.is_screen then [Ev.escE] else []) ++
                (transferGo o wOk fuel (k + 1) false ((b :: bs).drop (cap o))).1)
        else
          ((if o.is_screen then [Ev.escP] else []) ++
              (if wh then [Ev.header] else [])) ++
            [Ev.payload (effChunk o (b :: bs))] := by
  rw [transferGo_cons]
  split_ifs <;> rfl

theorem tg_payload_mem (o : Opts) (wOk : Nat → Bool) :
    ∀ fuel k wh inp c, Ev.payload c ∈ (transferGo o wOk fuel k wh inp).1 →
      c ≠ [] ∧ c.length ≤ cap o := by
  intro fuel
  induction fuel with
  | zero =>
      intro k wh inp c hm
      cases inp <;> simp [transferGo] at hm
  | succ n ih =>
      intro k wh inp c hm
      cases inp with
      | nil => simp [transferGo] at hm
      | cons b bs =>
          rw [transferGo_cons_fst] at hm
          by_cases h1 : effChunk o (b :: bs) = []
          · rw [if_pos h1] at hm
            simp at hm
          · rw [if_neg h1] at hm
            by_cases h2 : wOk k = true
            · rw [if_pos h2] at hm
              rw [List.mem_append] at hm
              rcases hm with hm | hm
              · exact absurd hm (payload_not_mem_pre o wh c)
              · rw [List.mem_cons] at hm
                rcases hm with hm | hm
                · rw [Ev.payload.inj hm]
                  exact ⟨h1, effChunk_len o (b :: bs)⟩
                · rw [List.mem_append] at hm
                  rcases hm with hm | hm
                  · exact absurd hm (payload_not_mem_post o c)
                  · exact ih (k + 1) false ((b :: bs).drop (cap o)) c hm
            · rw [if_neg h2] at hm
              rw [List.mem_append] at hm
              rcases hm with hm | hm
              · exact absurd hm (payload_not_mem_pre o wh c)
              · rw [List.mem_singleton] at hm
                rw [Ev.payload.inj hm]
                exact ⟨h1, effChunk_len o (b :: bs)⟩

theorem tg_wrapOk (o : Opts) (wOk : Nat → Bool) (hscr : o.is_screen = true)
    (hok : ∀ j, wOk j = true) :
    ∀ fuel k wh inp, wrapOk (transferGo o wOk fuel k wh inp).1 = true := by
  intro fuel
  induction fuel with
  | zero =>
      intro k wh inp
      cases inp <;> simp [transferGo, wrapOk]
  | succ n ih =>
      intro k wh inp
      cases inp with
      | nil => simp [transferGo, wrapOk]
      | cons b bs =>
          rw [transferGo_cons_fst]
          by_cases h1 : effChunk o (b :: bs) = []
          · rw [if_pos h1]
            rfl
          · rw [if_neg h1, if_pos (hok k), hscr]
            cases wh <;>
              simp [wrapOk, ih (k + 1) false ((b :: bs).drop (cap o))]

/-! ## Base64 lemmas -/

theorem b64_val_b64 : ∀ i < 64, b64_val (b64 i) = i := by decide

theorem b64_ne_61 : ∀ i < 64, b64 i ≠ 61 := by decide

theorem b64_ne_zero : ∀ i < 64, b64 i ≠ 0 := by decide

theorem base64_encode_length : ∀ s : List Nat,
    (base64_encode s).length = (s.length + 2) / 3 * 4
  | [] => rfl
  | [_] => by simp [base64_encode]
  | [_, _] => by simp [base64_encode]
  | a :: b :: c :: rest => by
      have ih := base64_encode_length rest
      simp only [base64_encode, List.length_cons]
      omega

theorem base64_decode_encode : ∀ s : List Nat, (∀ x ∈ s, x < 256) →
    base64_decode (base64_encode s) = s
  | [], _ => rfl
  | [a], h => by
      have ha : a < 256 := h a (by simp)
      have h1 := b64_val_b64 (a / 4) (by omega)
      have h2 := b64_val_b64 ((a % 4) * 16) (by omega)
      simp only [base64_encode, base64_decode, if_pos, reduceIte]
      rw [h1, h2]
      simp only [List.cons.injEq, and_true]
      omega
  | [a, b], h => by
      have ha : a < 256 := h a (by simp)
      have hb : b < 256 := h b (by simp)
      have hy := b64_ne_61 ((b % 16) * 4) (by omega)
      have h1 := b64_val_b64 (a / 4) (by omega)
      have h2 := b64_val_b64 ((a % 4) * 16 + b / 16) (by omega)
      have h3 := b64_val_b64 ((b % 16) * 4) (by omega)
      simp only [base64_encode, base64_decode, if_neg hy, reduceIte]
      rw [h1, h2, h3]
      simp only [List.cons.injEq, and_true]
      omega
  | a :: b :: c :: rest, h => by
      have ha : a < 256 := h a (by simp)
      have hb : b < 256 := h b (by simp)
      have hc : c < 256 := h c (by simp)
      have ih := base64_decode_encode rest (fun x hx => h x (by simp [hx]))
      have hy := b64_ne_61 ((b % 16) * 4 + c / 64) (by omega)
      have hz := b64_ne_61 (c % 64) (by omega)
      have h1 := b64_val_b64 (a / 4) (by omega)
      have h2 := b64_val_b64 ((a % 4) * 16 + b / 16) (by omega)
      have h3 := b64_val_b64 ((b % 16) * 4 + c / 64) (by omega)
      have h4 := b64_val_b64 (c % 64) (by omega)
      simp only [base64_encode, base64_decode, if_neg hy, if_neg hz]
      rw [h1, h2, h3, h4, ih]
      simp only [List.cons.injEq, and_true]
      omega

theorem base64_encode_ne_zero : ∀ s : List Nat, (∀ x ∈ s, x < 256) →
    (0 : Nat) ∉ base64_encode s
  | [], _ => by simp [base64_encode]
  | [a], h => by
      have ha : a < 256 := h a (by simp)
      have h1 := b64_ne_zero (a / 4) (by omega)
      have h2 := b64_ne_zero ((a % 4) * 16) (by omega)
      simp only [base64_encode, List.mem_cons, List.not_mem_nil, or_false]
      omega
  | [a, b], h => by
      have ha : a < 256 := h a (by simp)
      have hb : b < 256 := h b (by simp)
      have h1 := b64_ne_zero (a / 4) (by omega)
      have h2 := b64_ne_zero ((a % 4) * 16 + b / 16) (by omega)
      have h3 := b64_ne_zero ((b % 16) * 4) (by omega)
      simp only [base64_encode, List.mem_cons, List.not_mem_nil, or_false]
      omega
  | a :: b :: c :: rest, h => by
      have ha : a < 256 := h a (by simp)
      have hb : b < 256 := h b (by simp)
      have hc : c < 256 := h c (by simp)
      have ih := base64_encode_ne_zero rest (fun x hx => h x (by simp [hx]))
      have h1 := b64_ne_zero (a / 4) (by omega)
      have h2 := b64_ne_zero ((a % 4) * 16 + b / 16) (by omega)
      have h3 := b64_ne_zero ((b % 16) * 4 + c / 64) (by omega)
      have h4 := b64_ne_zero (c % 64) (by omega)
      simp only [base64_encode, List.mem_cons]
      push_neg
      exact ⟨fun e => h1 e.symm, fun e => h2 e.symm, fun e => h3 e.symm,
             fun e => h4 e.symm, fun hm => ih hm⟩

/-- C1: the base64 encoder is the canonical RFC 4648 encoder: the reference
decoder inverts it, the returned length is `ceil(n/3)*4` (a multiple of 4,
so the output is `=`-padded to a quadruple boundary), and the bytes stored
in the destination buffer are the encoding plus one terminating null byte
not counted in the returned length, filling exactly the
`base64_encoded_size` contract of `ceil(n/3)*4 + 1` bytes. -/
theorem c1_base64 (s : List Nat) (h : ∀ x ∈ s, x < 256) :
    base64_decode (base64_encode s) = s ∧
    (base64_encode s).length = (s.length + 2) / 3 * 4 ∧
    (base64_encode s).length % 4 = 0 ∧
    base64_write s = base64_encode s ++ [0] ∧
    (base64_write s).length = base64_encoded_size s.length ∧
    (base64_write s).count 0 = 1 ∧
    (base64_write s).getLast? = some 0 := by
  refine ⟨base64_decode_encode s h, base64_encode_length s, ?_, rfl, ?_, ?_, ?_⟩
  · rw [base64_encode_length]; omega
  · simp only [base64_write, List.length_append, List.length_singleton,
      base64_encode_length, base64_encoded_size]
  · simp only [base64_write, List.count_append]
    rw [List.count_eq_zero.mpr (base64_encode_ne_zero s h)]
    rfl
  · simp only [base64_write, List.getLast?_concat]

/-- Witness for C1 at the concrete input "hi". -/
theorem c1_base64_witness :
    base64_decode (base64_encode [104, 105]) = [104, 105] ∧
    (base64_encode [104, 105]).length = ([104, 105].length + 2) / 3 * 4 ∧
    (base64_encode [104, 105]).length % 4 = 0 ∧
    base64_write [104, 105] = base64_encode [104, 105] ++ [0] ∧
    (base64_write [104, 105]).length = base64_encoded_size [104, 105].length ∧
    (base64_write [104, 105]).count 0 = 1 ∧
    (base64_write [104, 105]).getLast? = some 0 :=
  c1_base64 [104, 105] (by decide)

/-- C3: in every transfer the footer is written exactly once, after the
loop, whatever the input, the read-error state and the write outcomes; when
at least one frame is emitted, the header is written exactly once and
before the first frame's payload; a failed frame write stops the loop at
that frame (no frame beyond the failing index is emitted), the resulting
status is either success or `ERR_IO`, and a write failure on an emitted
frame is surfaced as `ERR_IO` — with the footer still written. -/
theorem c3_transfer_framing (o : Opts) (wOk : Nat → Bool) (readErr : Bool)
    (inp : List Nat) :
    (transfer o wOk readErr inp).1.getLast? = some Ev.footer ∧
    (transfer o wOk readErr inp).1.count Ev.footer = 1 ∧
    (0 < (transfer o wOk readErr inp).1.countP isPayload →
      (transfer o wOk readErr inp).1.count Ev.header = 1 ∧
      Ev.header ∈ (transfer o wOk readErr inp).1.takeWhile
        fun e => !(isPayload e)) ∧
    (∀ j, wOk j = false →
      (transfer o wOk readErr inp).1.countP isPayload ≤ j + 1) ∧
    ((transfer o wOk readErr inp).2 = 0 ∨
      (transfer o wOk readErr inp).2 = err_io) ∧
    (∀ j, wOk j = false →
      j < (transfer o wOk readErr inp).1.countP isPayload →
      (transfer o wOk readErr inp).2 = err_io) := by
  have hT1 : (transfer o wOk readErr inp).1 =
      (transferGo o wOk inp.length 0 true inp).1 ++ [Ev.footer] := rfl
  have hT2 : (transfer o wOk readErr inp).2 =
      if readErr then err_io
      else (transferGo o wOk inp.length 0 true inp).2 := rfl
  refine ⟨?_, ?_, ?_, ?_, ?_, ?_⟩
  · rw [hT1]
    exact List.getLast?_concat _
  · rw [hT1, List.count_append]
    rw [List.count_eq_zero.mpr (tg_footer_not_mem o wOk inp.length 0 true inp)]
    rfl
  · intro hpos
    rw [hT1] at hpos ⊢
    rcases tg_shape_true o wOk inp.length 0 inp with hsh | ⟨c, t, hsh, hnm⟩
    · rw [hsh] at hpos
      simp [isPayload] at hpos
    · rw [hsh]
      constructor
      · by_cases hs : o.is_screen = true <;>
          simp [hs, List.count_append, List.count_cons,
            List.count_eq_zero.mpr hnm]
      · by_cases hs : o.is_screen = true <;>
          simp [hs, List.takeWhile, isPayload]
  · intro j hj
    have hle := tg_countP_le o wOk inp.length 0 true inp j (Nat.zero_le j) hj
    rw [hT1]
    simpa [List.countP_append, isPayload] using hle
  · rw [hT2]
    by_cases hr : readErr = true
    · rw [if_pos hr]
      exact Or.inr rfl
    · rw [if_neg hr]
      exact tg_rc o wOk inp.length 0 true inp
  · intro j hj hlt
    rw [hT1] at hlt
    have hlt2 : j - 0 <
        (transferGo o wOk inp.length 0 true inp).1.countP isPayload := by
      simpa [List.countP_append, isPayload] using hlt
    have hrc := tg_fail_rc o wOk inp.length 0 true inp j (Nat.zero_le j) hj hlt2
    rw [hT2]
    by_cases hr : readErr = true
    · rw [if_pos hr]
    · rw [if_neg hr]
      exact hrc

/-- Witness for C3: with a first-frame write failure on one byte of input,
the transfer status is `ERR_IO`. -/
theorem c3_witness :
    (transfer ⟨Op.write, false, false, false, false⟩ (fun _ => false) false
      [1]).2 = err_io :=
  (c3_transfer_framing ⟨Op.write, false, false, false, false⟩
    (fun _ => false) false [1]).2.2.2.2.2 0 rfl (by decide)

/-- C4 counterexample: with trimming enabled and input consisting of the
single byte `'\n'`, the loop breaks before the header write, so the output
contains no header at all — it is the footer alone, not header plus
footer as claimed. -/
theorem c4_counterexample :
    (transfer ⟨Op.write, false, false, false, true⟩ (fun _ => true) false
      [10]).1.count Ev.header = 0 ∧
    (transfer ⟨Op.write, false, false, false, true⟩ (fun _ => true) false
      [10]).1 = [Ev.footer] := by
  exact ⟨by decide, by decide⟩

/-- C4 amended: with trimming enabled, input "hello\n" transfers the frame
"hello", input "hello" transfers "hello" unchanged, and input "\n"
transfers nothing: the output is the footer only — no chunk body and, the
loop breaking before the header write, no header either. -/
theorem c4_trim_amended :
    transfer ⟨Op.write, false, false, false, true⟩ (fun _ => true) false
      (bytes "hello\x0a") =
      ([Ev.header, Ev.payload (bytes "hello"), Ev.footer], 0) ∧
    transfer ⟨Op.write, false, false, false, true⟩ (fun _ => true) false
      (bytes "hello") =
      ([Ev.header, Ev.payload (bytes "hello"), Ev.footer], 0) ∧
    transfer ⟨Op.write, false, false, false, true⟩ (fun _ => true) false
      [10] = ([Ev.footer], 0) := by
  exact ⟨by decide, by decide, by decide⟩

/-- C8: the raw-chunk capacity is 254×3 bytes for Screen and 2048×3
otherwise, always a multiple of 3; every emitted frame is non-empty and at
most the capacity; and for Screen, when all frame writes succeed, the
output is a sequence of `ESC P` … `ESC \` blocks (each holding one frame,
the first also the header) followed by the footer. -/
theorem c8_screen_chunks (o : Opts) (wOk : Nat → Bool) (readErr : Bool)
    (inp : List Nat) :
    (o.is_screen = true → cap o = 254 * 3) ∧
    (o.is_screen = false → cap o = 2048 * 3) ∧
    cap o % 3 = 0 ∧
    (∀ c, Ev.payload c ∈ (transfer o wOk readErr inp).1 →
      c.length ≤ cap o ∧ c ≠ []) ∧
    (o.is_screen = true → (∀ j, wOk j = true) →
      ∃ body, (transfer o wOk readErr inp).1 = body ++ [Ev.footer] ∧
        wrapOk body = true) := by
  refine ⟨fun h => by simp [cap, h], fun h => by simp [cap, h], ?_, ?_, ?_⟩
  · by_cases h : o.is_screen = true <;> simp [cap, h]
  · intro c hm
    have hT1 : (transfer o wOk readErr inp).1 =
        (transferGo o wOk inp.length 0 true inp).1 ++ [Ev.footer] := rfl
    rw [hT1, List.mem_append] at hm
    rcases hm with hm | hm
    · have := tg_payload_mem o wOk inp.length 0 true inp c hm
      exact ⟨this.2, this.1⟩
    · simp at hm
  · intro hs hok
    exact ⟨(transferGo o wOk inp.length 0 true inp).1, rfl,
      tg_wrapOk o wOk hs hok inp.length 0 true inp⟩

/-- Witness for C8: the two capacity clauses at concrete configurations. -/
theorem c8_witness :
    cap ⟨Op.write, true, false, false, false⟩ = 254 * 3 ∧
    cap ⟨Op.write, false, false, false, false⟩ = 2048 * 3 :=
  ⟨(c8_screen_chunks ⟨Op.write, true, false, false, false⟩ (fun _ => true)
      false []).1 rfl,
   (c8_screen_chunks ⟨Op.write, false, false, false, false⟩ (fun _ => true)
      false []).2.1 rfl⟩

/-! ## Cursor-reply parsing lemmas -/

theorem takeWhile_all (p : Nat → Bool) :
    ∀ l : List Nat, (∀ x ∈ l, p x = true) → l.takeWhile p = l
  | [], _ => rfl
  | x :: xs, h => by
      rw [List.takeWhile_cons, if_pos (h x (by simp)),
        takeWhile_all p xs fun z hz => h z (by simp [hz])]

theorem takeWhile_all_append (p : Nat → Bool) :
    ∀ (xs : List Nat) (y : Nat) (ys : List Nat), (∀ x ∈ xs, p x = true) →
      p y = false → (xs ++ y :: ys).takeWhile p = xs
  | [], y, ys, _, hy => by
      rw [List.nil_append, List.takeWhile_cons, if_neg (by simp [hy])]
  | x :: xs, y, ys, hx, hy => by
      rw [List.cons_append, List.takeWhile_cons, if_pos (hx x (by simp)),
        takeWhile_all_append p xs y ys (fun z hz => hx z (by simp [hz])) hy]

theorem readLoop_complete :
    ∀ (pfx rest : List Nat) (i ch : Nat), (82 : Nat) ∉ pfx → ch ≠ 82 →
      i + pfx.length + 1 ≤ 15 →
      readLoop (pfx ++ 82 :: rest) i ch = some (pfx ++ [82])
  | [], rest, i, ch, _, hch, hle => by
      have hle2 : i + 1 ≤ 15 := by simpa using hle
      have h1 : ¬(ch = 82 ∨ 15 ≤ i) := by omega
      rw [List.nil_append, readLoop, if_neg h1]
      show (readLoop rest (i + 1) 82).map (fun t => 82 :: t) = some ([] ++ [82])
      rw [readLoop.eq_def, if_pos (Or.inl rfl)]
      rfl
  | x :: pfx, rest, i, ch, hpfx, hch, hle => by
      have hle2 : i + (pfx.length + 1) + 1 ≤ 15 := by simpa using hle
      have h1 : ¬(ch = 82 ∨ 15 ≤ i) := by omega
      have hx : x ≠ 82 := fun e => hpfx (by simp [e])
      rw [List.cons_append, readLoop, if_neg h1]
      show (readLoop (pfx ++ 82 :: rest) (i + 1) x).map (fun t => x :: t) =
        some (x :: pfx ++ [82])
      rw [readLoop_complete pfx rest (i + 1) x
        (fun hm => hpfx (by simp [hm])) hx (by omega)]
      rfl

theorem scanInt_digits (d : Nat) (ds : List Nat) (y : Nat) (ys : List Nat)
    (hd : ∀ e ∈ d :: ds, 48 ≤ e ∧ e ≤ 57) (hy : isDigitByte y = false) :
    scanInt ((d :: ds) ++ y :: ys) =
      some (toInt32 ((digitsVal (d :: ds) : Int)), y :: ys) := by
  have hd0 := hd d (by simp)
  have hsp : isSpaceByte d = false := by
    simp only [isSpaceByte, decide_eq_false_iff_not]
    omega
  have h1 : List.dropWhile isSpaceByte (d :: (ds ++ y :: ys)) =
      d :: (ds ++ y :: ys) := by
    rw [List.dropWhile_cons, if_neg (by simp [hsp])]
  have h45 : ¬((d :: (ds ++ y :: ys)).head? = some 45) := by
    simp only [List.head?_cons, Option.some.injEq]
    omega
  have hOr : ¬((d :: (ds ++ y :: ys)).head? = some 45 ∨
      (d :: (ds ++ y :: ys)).head? = some 43) := by
    simp only [List.head?_cons, Option.some.injEq]
    omega
  have h3 : List.takeWhile isDigitByte (d :: (ds ++ y :: ys)) = d :: ds := by
    rw [← List.cons_append]
    refine takeWhile_all_append isDigitByte (d :: ds) y ys ?_ hy
    intro e he
    have := hd e he
    simp only [isDigitByte, decide_eq_true_eq]
    omega
  have h4 : (d :: (ds ++ y :: ys)).drop (d :: ds).length = y :: ys := by
    rw [← List.cons_append]
    exact List.drop_left _ _
  simp only [scanInt, List.cons_append, h1, if_neg h45, if_neg hOr, h3, h4]
  rw [if_neg (by simp)]
  simp

theorem scanReply_wf (rd cd : List Nat) (rest : List Nat)
    (hrd : rd ≠ []) (hcd : cd ≠ [])
    (hd1 : ∀ e ∈ rd, 48 ≤ e ∧ e ≤ 57) (hd2 : ∀ e ∈ cd, 48 ≤ e ∧ e ≤ 57) :
    scanReply (27 :: 91 :: (rd ++ 59 :: (cd ++ 82 :: rest))) =
      some (toInt32 ((digitsVal cd : Int))) := by
  obtain ⟨r0, rd', rfl⟩ : ∃ a l, rd = a :: l := by
    cases rd
    · exact absurd rfl hrd
    · exact ⟨_, _, rfl⟩
  obtain ⟨c0, cd', rfl⟩ : ∃ a l, cd = a :: l := by
    cases cd
    · exact absurd rfl hcd
    · exact ⟨_, _, rfl⟩
  have e1 := scanInt_digits r0 rd' 59 ((c0 :: cd') ++ 82 :: rest) hd1
    (by decide)
  have e2 := scanInt_digits c0 cd' 82 rest hd2 (by decide)
  simp only [scanReply, e1, e2]

theorem get_cursor_column_wf (rd cd rest : List Nat)
    (hrd : rd ≠ []) (hcd : cd ≠ [])
    (hd1 : ∀ e ∈ rd, 48 ≤ e ∧ e ≤ 57) (hd2 : ∀ e ∈ cd, 48 ≤ e ∧ e ≤ 57)
    (hlen : rd.length + cd.length ≤ 11) :
    get_cursor_column true (27 :: 91 :: (rd ++ 59 :: (cd ++ 82 :: rest))) =
      toInt32 ((digitsVal cd : Int)) := by
  have hsh : 27 :: 91 :: (rd ++ 59 :: (cd ++ 82 :: rest)) =
      (27 :: 91 :: (rd ++ 59 :: cd)) ++ 82 :: rest := by
    simp [List.append_assoc]
  have h82 : (82 : Nat) ∉ 27 :: 91 :: (rd ++ 59 :: cd) := by
    intro hm
    simp only [List.mem_cons, List.mem_append] at hm
    rcases hm with h | h | h | h | h
    · omega
    · omega
    · have := hd1 82 h
      omega
    · omega
    · have := hd2 82 h
      omega
  have hlen2 : 0 + (27 :: 91 :: (rd ++ 59 :: cd)).length + 1 ≤ 15 := by
    have : (27 :: 91 :: (rd ++ 59 :: cd)).length =
        rd.length + cd.length + 3 := by
      simp only [List.length_cons, List.length_append]
      omega
    omega
  have hch0 : (0 : Nat) ≠ 82 := by omega
  have hread : readLoop (27 :: 91 :: (rd ++ 59 :: (cd ++ 82 :: rest))) 0 0 =
      some ((27 :: 91 :: (rd ++ 59 :: cd)) ++ [82]) := by
    rw [hsh]
    exact readLoop_complete (27 :: 91 :: (rd ++ 59 :: cd)) rest 0 0 h82
      hch0 hlen2
  have hbuf : ((27 :: 91 :: (rd ++ 59 :: cd)) ++ [82]).takeWhile
      (fun b => b ≠ 0) = (27 :: 91 :: (rd ++ 59 :: cd)) ++ [82] := by
    apply takeWhile_all
    intro x hx
    simp only [List.mem_append, List.mem_cons, List.mem_singleton] at hx
    simp only [ne_eq, decide_eq_true_eq]
    have hx6 : x = 27 ∨ x = 91 ∨ x ∈ rd ∨ x = 59 ∨ x ∈ cd ∨ x = 82 := by
      tauto
    rcases hx6 with h | h | h | h | h | h
    · omega
    · omega
    · have := hd1 x h
      omega
    · omega
    · have := hd2 x h
      omega
    · omega
  have hsh0 : (27 :: 91 :: (rd ++ 59 :: cd)) ++ [82] =
      27 :: 91 :: (rd ++ 59 :: (cd ++ 82 :: ([] : List Nat))) := by
    simp [List.append_assoc]
  have hread2 : readLoop (27 :: 91 :: (rd ++ 59 :: (cd ++ 82 :: rest))) 0 0 =
      some (27 :: 91 :: (rd ++ 59 :: (cd ++ 82 :: ([] : List Nat)))) := by
    rw [hread, hsh0]
  have hbuf2 :
      (27 :: 91 :: (rd ++ 59 :: (cd ++ 82 :: ([] : List Nat)))).takeWhile
        (fun b => b ≠ 0) =
      27 :: 91 :: (rd ++ 59 :: (cd ++ 82 :: ([] : List Nat))) := by
    rw [← hsh0]
    exact hbuf
  have e3 := scanReply_wf rd cd [] hrd hcd hd1 hd2
  simp only [get_cursor_column, Bool.true_eq_false, reduceIte,
    hread2, hbuf2, e3]

/-- C6 counterexample: the reply "\x1b[1;2abcdefghij" never contains the
terminator `'R'` (82) — it is an incomplete reply — yet `get_cursor_column`
returns the valid-looking column 2, not the error value -1: after 15 bytes
the read loop stops and `sscanf` still converts both numbers, `R` not being
required for a return value of 2. -/
theorem c6_counterexample :
    (82 : Nat) ∉ bytes "\x1b[1;2abcdefghij" ∧
    get_cursor_column true (bytes "\x1b[1;2abcdefghij") = 2 := by
  exact ⟨by decide, by decide⟩

/-- Truncation through `int` is the identity on values that fit. -/
theorem toInt32_of_lt (n : Nat) (h : n < 2147483648) :
    toInt32 (n : Int) = (n : Int) := by
  have h1 : ((n : Int)) % 4294967296 = (n : Int) :=
    Int.emod_eq_of_lt (by omega) (by omega)
  simp only [toInt32, h1]
  rw [if_pos (by omega)]

/-- C6 amended: the probe reports supported exactly when both cursor
queries yielded non-negative columns and they are equal; a failed query
write and a silent terminal (no reply bytes) yield -1; and every
well-formed reply `ESC [ digits ; digits R` fitting the 15-byte read
budget parses to its column as stored through the 32-bit `int` of
`sscanf` — the exact (non-negative, hence ≠ -1) column value whenever it
fits in `int`, the two's-complement truncation otherwise: the 15-byte
reply with column digits 4294967295 stores -1, the error value.  The
claim's blanket "malformed or incomplete reply yields -1" does not hold:
an unterminated reply whose first bytes look like `ESC [ n ; m` can still
parse (see the counterexample); -1 is guaranteed only when the read fails
or the parse rejects the buffer. -/
theorem c6_probe_amended :
    (∀ (q1 q2 : Bool) (r1 r2 : List Nat),
      test_eval (get_cursor_column q1 r1) (get_cursor_column q2 r2) = 0 ↔
        0 ≤ get_cursor_column q1 r1 ∧ 0 ≤ get_cursor_column q2 r2 ∧
          get_cursor_column q1 r1 = get_cursor_column q2 r2) ∧
    (∀ r, get_cursor_column false r = -1) ∧
    get_cursor_column true [] = -1 ∧
    (∀ rd cd rest : List Nat, rd ≠ [] → cd ≠ [] →
      (∀ e ∈ rd, 48 ≤ e ∧ e ≤ 57) → (∀ e ∈ cd, 48 ≤ e ∧ e ≤ 57) →
      rd.length + cd.length ≤ 11 →
      get_cursor_column true (27 :: 91 :: (rd ++ 59 :: (cd ++ 82 :: rest))) =
        toInt32 ((digitsVal cd : Int)) ∧
      (digitsVal cd < 2147483648 →
        get_cursor_column true
            (27 :: 91 :: (rd ++ 59 :: (cd ++ 82 :: rest))) =
          (digitsVal cd : Int) ∧
        (-1 : Int) < (digitsVal cd : Int))) ∧
    get_cursor_column true (bytes "\x1b[1;4294967295R") = -1 := by
  refine ⟨?_, fun r => rfl, by decide, ?_, by decide⟩
  · intro q1 q2 r1 r2
    have he : err_general = 1 := rfl
    simp only [test_eval]
    split_ifs with h
    · constructor <;> intro h0 <;> omega
    · constructor <;> intro h0 <;> omega
  · intro rd cd rest h1 h2 h3 h4 h5
    have hw := get_cursor_column_wf rd cd rest h1 h2 h3 h4 h5
    refine ⟨hw, fun hlt => ⟨?_, by omega⟩⟩
    rw [hw, toInt32_of_lt (digitsVal cd) hlt]

/-- Witness for C6: the amended well-formed-reply clause at the concrete
reply "\x1b[1;2R", whose column 2 fits in `int`. -/
theorem c6_witness :
    get_cursor_column true (27 :: 91 :: ([49] ++ 59 :: ([50] ++ 82 :: []))) =
      (digitsVal [50] : Int) ∧
    (-1 : Int) < (digitsVal [50] : Int) :=
  (c6_probe_amended.2.2.2.1 [49] [50] [] (by decide) (by decide) (by decide)
    (by decide) (by decide)).2 (by decide)

/-! ## Argument-concatenation lemmas -/

theorem argsJoin_codeJoin : ∀ (args : List (List Nat)) (buf out : List Nat),
    argsJoin buf args = some out →
    out = args.foldl
      (fun b a => (if b.length > 0 then b ++ [32] else b) ++ a) buf
  | [], buf, out, h => by
      simp only [argsJoin, Option.some.injEq] at h
      simp [← h]
  | a :: rest, buf, out, h => by
      rw [argsJoin] at h
      by_cases hc : buf.length + a.length + 2 > osc_safe_limit
      · rw [if_pos hc] at h
        exact absurd h (by simp)
      · rw [if_neg hc] at h
        rw [List.foldl_cons]
        exact argsJoin_codeJoin rest _ out h

theorem argsJoin_le : ∀ (args : List (List Nat)) (buf out : List Nat),
    argsJoin buf args = some out → out.length ≤ max buf.length 74993
  | [], buf, out, h => by
      simp only [argsJoin, Option.some.injEq] at h
      simp [← h]
  | a :: rest, buf, out, h => by
      rw [argsJoin] at h
      by_cases hc : buf.length + a.length + 2 > osc_safe_limit
      · rw [if_pos hc] at h
        exact absurd h (by simp)
      · rw [if_neg hc] at h
        have hrec := argsJoin_le rest _ out h
        have hlen : ((if buf.length > 0 then buf ++ [32] else buf) ++ a).length
            ≤ 74993 := by
          by_cases hb : buf.length > 0 <;>
            simp only [hb, if_pos, if_neg, List.length_append,
              List.length_singleton, reduceIte] <;>
            simp only [osc_safe_limit] at hc <;> omega
        omega

theorem opBody_writes (o : Opts) (w : World) :
    ∀ a ∈ (opBody o w).1, isWrite a = true := by
  intro a ha
  obtain ⟨op, scr, tmx, prim, trim⟩ := o
  cases a
  case write => rfl
  all_goals (
    cases op
    case test =>
      simp only [opBody] at ha
      split_ifs at ha <;> simp at ha
    case clear =>
      simp only [opBody] at ha
      simp at ha
    case write =>
      simp only [opBody] at ha
      split_ifs at ha with hargs
      · simp at ha
      · cases hj : argsJoin [] w.args with
        | none =>
            rw [hj] at ha
            simp at ha
        | some buf =>
            rw [hj] at ha
            simp at ha)

/-- C5 counterexample: a single literal argument of 74993 bytes — joined
length 74993 ≤ 74994, which the claim says is accepted — is rejected by the
argument-concatenation check `buf_len + arg_len + 2 > sizeof(buf)`. -/
theorem c5_counterexample :
    argsJoin [] [List.replicate 74993 97] = none := by
  have h : ([] : List Nat).length + (List.replicate 74993 (97 : Nat)).length
      + 2 > osc_safe_limit := by
    rw [List.length_replicate, List.length_nil]
    show (0 : Nat) + 74993 + 2 > 74994
    omega
  rw [argsJoin, if_pos h]

/-- C5 amended: oversize literal-argument input is rejected before any byte
reaches the destination (the run performs no write action and exits with
ERR_GENERAL), but the acceptance bound is stricter than the claimed 74994:
every accepted argument list joins to at most 74993 bytes (so all joined
lengths above 74994 are certainly rejected), and a single argument is
accepted only up to 74992 bytes. -/
theorem c5_args_amended :
    (∀ (args : List (List Nat)) (out : List Nat),
      argsJoin [] args = some out →
      out = codeJoin args ∧ out.length ≤ 74993) ∧
    (∀ (o : Opts) (w : World), o.op = Op.write → w.args ≠ [] →
      argsJoin [] w.args = none → w.openOk = true →
      (mainRun o w).2 = err_general ∧
      ∀ bs, Act.write bs ∉ (mainRun o w).1) ∧
    (∀ a : List Nat, a.length ≤ 74992 → argsJoin [] [a] = some a) := by
  refine ⟨?_, ?_, ?_⟩
  · intro args out h
    constructor
    · exact argsJoin_codeJoin args [] out h
    · have := argsJoin_le args [] out h
      simpa using this
  · intro o w hop hargs hjoin hopen
    obtain ⟨op, scr, tmx, prim, trim⟩ := o
    subst hop
    have hbody : opBody ⟨Op.write, scr, tmx, prim, trim⟩ w =
        ([], err_general, true) := by
      simp only [opBody, if_neg hargs, hjoin]
    constructor
    · simp only [mainRun, hopen, Bool.true_eq_false, if_neg, hbody, reduceIte]
      simp
    · intro bs hmem
      simp only [mainRun, hopen, Bool.true_eq_false, if_neg, hbody,
        reduceIte] at hmem
      by_cases ht : w.isTty = true <;>
        simp [ht] at hmem
  · intro a ha
    rw [argsJoin, if_neg (by simp only [List.length_nil, osc_safe_limit]; omega)]
    simp [argsJoin]

/-- Witness for C5's amended statement: the empty-accumulator bound and the
single-argument acceptance at a one-byte argument. -/
theorem c5_witness :
    argsJoin [] [[97]] = some [97] :=
  c5_args_amended.2.2 [97] (by decide)

/-- C7 counterexample: in a clear-operation run on a terminal destination —
not a probe — the terminal mode is still switched (the raw-mode change is
in the trace), refuting "performed only within the Terminal Probe". -/
theorem c7_counterexample :
    Act.modeRaw ∈ (mainRun ⟨Op.clear, false, false, false, false⟩
      ⟨true, true, false, false, fun _ => true, [], [], true, [], true,
        []⟩).1 := by
  decide

/-- C7 amended: the terminal-mode save and raw switch happen for every
operation (transfer and clear included) whenever the destination is a tty,
not only around the probe; the saved mode is restored unconditionally on
every exit path after the switch — the trace always starts with
save/raw-switch and ends with the restore, everything in between being
plain writes — and when the destination is not a tty no mode action occurs
at all. -/
theorem c7_mode_amended (o : Opts) (w : World) (hopen : w.openOk = true) :
    (w.isTty = true →
      ∃ body, (mainRun o w).1 =
          [Act.modeSave, Act.modeRaw] ++ body ++ [Act.modeRestore] ∧
        ∀ a ∈ body, isWrite a = true) ∧
    (w.isTty = true →
      (mainRun o w).1.head? = some Act.modeSave ∧
      (mainRun o w).1.getLast? = some Act.modeRestore) ∧
    (w.isTty = false →
      Act.modeSave ∉ (mainRun o w).1 ∧ Act.modeRaw ∉ (mainRun o w).1 ∧
        Act.modeRestore ∉ (mainRun o w).1) := by
  have hmain : (mainRun o w).1 =
      (if w.isTty then [Act.modeSave, Act.modeRaw] else []) ++
        (opBody o w).1 ++
        (if w.isTty then [Act.modeRestore] else []) := by
    simp only [mainRun, hopen, Bool.true_eq_false, if_neg, reduceIte]
  refine ⟨?_, ?_, ?_⟩
  · intro ht
    refine ⟨(opBody o w).1, ?_, opBody_writes o w⟩
    rw [hmain, ht]
    simp
  · intro ht
    have hmain2 : (mainRun o w).1 =
        ([Act.modeSave, Act.modeRaw] ++ (opBody o w).1) ++
          [Act.modeRestore] := by
      rw [hmain, ht]
      simp [List.append_assoc]
    rw [hmain2]
    exact ⟨rfl, List.getLast?_concat _⟩
  · intro ht
    rw [hmain, ht]
    refine ⟨?_, ?_, ?_⟩ <;> intro hmem <;> simp only [Bool.false_eq_true,
        if_neg, reduceIte, List.nil_append, List.append_nil] at hmem <;>
      have := opBody_writes o w _ hmem <;> simp [isWrite] at this

/-- Witness for C7's amended statement: head and last action of a concrete
clear-operation run on a tty. -/
theorem c7_witness :
    (mainRun ⟨Op.clear, false, false, false, false⟩
        ⟨true, true, false, false, fun _ => true, [], [], true, [], true,
          []⟩).1.head? = some Act.modeSave ∧
    (mainRun ⟨Op.clear, false, false, false, false⟩
        ⟨true, true, false, false, fun _ => true, [], [], true, [], true,
          []⟩).1.getLast? = some Act.modeRestore :=
  (c7_mode_amended _ _ rfl).2.1 rfl

/-- C2: the header and footer are pure functions of the multiplexer flags
and the selection: the two cited configurations produce exactly the cited
byte strings, and any two option records agreeing on `is_tmux` and
`primary` produce identical headers, any two agreeing on `is_tmux`
identical footers. -/
theorem c2_seq_builder :
    seq_start ⟨Op.write, false, true, true, false⟩ =
      bytes "\x1bPtmux;\x1b\x1b]52;p;" ∧
    seq_end ⟨Op.write, false, true, true, false⟩ = bytes "\x07\x1b\\" ∧
    seq_start ⟨Op.write, false, false, false, false⟩ = bytes "\x1b]52;c;" ∧
    seq_end ⟨Op.write, false, false, false, false⟩ = bytes "\x07" ∧
    (∀ o o' : Opts, o.is_tmux = o'.is_tmux → o.primary = o'.primary →
      seq_start o = seq_start o') ∧
    (∀ o o' : Opts, o.is_tmux = o'.is_tmux → seq_end o = seq_end o') := by
  refine ⟨by decide, by decide, by decide, by decide, ?_, ?_⟩
  · intro o o' h1 h2
    simp only [seq_start, h1, h2]
  · intro o o' h1
    simp only [seq_end, h1]

/-- Witness for C2: the purity components applied at two concrete option
records that differ in every field except the two that matter. -/
theorem c2_witness :
    seq_start ⟨Op.clear, true, false, false, true⟩ =
      seq_start ⟨Op.write, false, false, false, false⟩ ∧
    seq_end ⟨Op.clear, true, false, false, true⟩ =
      seq_end ⟨Op.write, false, false, false, false⟩ :=
  ⟨c2_seq_builder.2.2.2.2.1 _ _ rfl rfl, c2_seq_builder.2.2.2.2.2 _ _ rfl⟩

/-- For every combination of the two option bits the header/footer depend
on, the footer avoids the base64 alphabet and both payload delimiters (the
final header byte and the first footer byte) avoid it too. -/
theorem seq_delims (tmx prim : Bool) :
    (∀ x ∈ seq_end ⟨Op.write, false, tmx, prim, false⟩, x ∉ b64_table) ∧
    (seq_start ⟨Op.write, false, tmx, prim, false⟩).getLast? = some 59 ∧
    (59 : Nat) ∉ b64_table ∧
    (seq_end ⟨Op.write, false, tmx, prim, false⟩).head? = some 7 ∧
    (7 : Nat) ∉ b64_table := by
  cases tmx <;> cases prim <;>
    exact ⟨by decide, by decide, by decide, by decide, by decide⟩

/-- C9 counterexample: in the (None, Clipboard) configuration the header
byte `'5'` (53) is a base64-alphabet character, refuting the invariant that
no header byte is in the alphabet. -/
theorem c9_counterexample :
    (53 : Nat) ∈ seq_start ⟨Op.write, false, false, false, false⟩ ∧
    (53 : Nat) ∈ b64_table := by decide

/-- C9 amended: for every configuration no *footer* byte is a
base64-alphabet character, and the byte adjacent to each payload boundary —
the final header byte `';'` (59) and the first footer byte BEL (7) — is not
in the alphabet, so a decoder can still locate the payload by delimiter
scanning; the header as a whole, however, does contain alphabet bytes. -/
theorem c9_delimiters_amended (o : Opts) :
    (∀ x ∈ seq_end o, x ∉ b64_table) ∧
    (seq_start o).getLast? = some 59 ∧
    (59 : Nat) ∉ b64_table ∧
    (seq_end o).head? = some 7 ∧
    (7 : Nat) ∉ b64_table := by
  obtain ⟨op, scr, tmx, prim, trim⟩ := o
  exact seq_delims tmx prim

/-- Witness for C9's amended statement at the (None, Clipboard)
configuration and the footer byte BEL. -/
theorem c9_witness :
    (7 : Nat) ∉ b64_table ∧
    (seq_start ⟨Op.write, false, false, false, false⟩).getLast? = some 59 :=
  ⟨(c9_delimiters_amended ⟨Op.write, false, false, false, false⟩).1 7 (by decide),
   (c9_delimiters_amended ⟨Op.write, false, false, false, false⟩).2.1⟩

/-- C10: `fpeek` returns the next byte of the stream (or `-1` when it is
exhausted) without consuming it: the observable remaining byte sequence is
unchanged, and an immediately following `fgetc` returns the very byte
`fpeek` returned. -/
theorem c10_fpeek (s : CStream) (h : ∀ x ∈ s.toList, x < 256) :
    (fpeek s).1 = (fgetc s).1 ∧
    (fpeek s).2.toList = s.toList ∧
    (fgetc (fpeek s).2).1 = (fpeek s).1 ∧
    (s.toList = [] → (fpeek s).1 = -1) ∧
    (∀ b t, s.toList = b :: t → (fpeek s).1 = (b : Int)) := by
  obtain ⟨pb, data⟩ := s
  match pb, data with
  | some c, d =>
      have hc : c < 256 := h c (by simp [CStream.toList])
      have hne : ¬((c : Int) = -1) := by omega
      refine ⟨rfl, ?_, ?_, ?_, ?_⟩
      · simp [fpeek, fgetc, ungetc, CStream.toList, hne, Nat.mod_eq_of_lt hc]
      · simp [fpeek, fgetc, ungetc, hne, Nat.mod_eq_of_lt hc]
      · intro he
        simp [CStream.toList] at he
      · intro b t he
        simp [CStream.toList] at he
        simp [fpeek, fgetc, he.1]
  | none, b :: d =>
      have hb : b < 256 := h b (by simp [CStream.toList])
      have hne : ¬((b : Int) = -1) := by omega
      refine ⟨rfl, ?_, ?_, ?_, ?_⟩
      · simp [fpeek, fgetc, ungetc, CStream.toList, hne, Nat.mod_eq_of_lt hb]
      · simp [fpeek, fgetc, ungetc, hne, Nat.mod_eq_of_lt hb]
      · intro he
        simp [CStream.toList] at he
      · intro b' t he
        simp [CStream.toList] at he
        simp [fpeek, fgetc, he.1]
  | none, [] =>
      exact ⟨rfl, rfl, rfl, fun _ => rfl, fun b t he => by
        simp [CStream.toList] at he⟩

/-- Witness for C10 on the one-byte stream containing 104. -/
theorem c10_witness :
    (fpeek ⟨none, [104]⟩).1 = (fgetc ⟨none, [104]⟩).1 ∧
    (fpeek ⟨none, [104]⟩).2.toList = CStream.toList ⟨none, [104]⟩ ∧
    (fgetc (fpeek ⟨none, [104]⟩).2).1 = (fpeek ⟨none, [104]⟩).1 ∧
    (CStream.toList ⟨none, [104]⟩ = [] → (fpeek ⟨none, [104]⟩).1 = -1) ∧
    (∀ b t, CStream.toList ⟨none, [104]⟩ = b :: t →
      (fpeek ⟨none, [104]⟩).1 = (b : Int)) :=
  c10_fpeek ⟨none, [104]⟩ (by decide)






